import Mathlib

/-!
Verification of the IceCube neutrino direction-reconstruction support code.

This file shallowly embeds the two source modules:

* `src/losses.py` — the angular-distance metric in two variants:
  `angular_dist_score` (numpy, validating, eager) and
  `angular_dist_loss` (torch, differentiable, non-validating).
  Real numbers stand in for IEEE doubles; the non-finite IEEE values
  (NaN, ±inf) are modelled explicitly by the `FVal` type so that the
  finiteness validation and the NaN-producing empty-mean case are visible.

* `src/datasets.py` — `create_folds`, the stratified fold assigner built on
  a pandas DataFrame and sklearn's `StratifiedKFold`.  The DataFrame is
  modelled as an integer-valued column table carrying an explicit row index
  (`Table`), since the source writes fold labels through label-based
  `data.loc` lookup.  The two external library computations whose exact
  numerics are irrelevant to every contract — the decile binning
  `pd.qcut(np.log10 ·, 10, labels=False)` and the Mersenne-Twister shuffle
  drawn from `random_state` — are passed in as explicit function parameters
  (`qcutLog10`, `shuffle`).  The binning parameter is fallible
  (`Option`-valued): real `pd.qcut(·, 10)` with its default
  `duplicates='raise'` raises `ValueError: Bin edges must be unique`
  whenever the eleven quantile edges collide (for instance on constant
  `log10(n_pulses)` values, or on an empty table where all edges are NaN),
  and that raise happens at the `data["bins"] = ...` line, after
  `n_pulses` is written but before `bins` and `fold` exist.  Theorems
  assume of the binning only that a successful result is length-preserving
  and of the shuffle only that it permutes its input, which are the
  library contracts.
-/

/-- An IEEE floating-point value: either a finite real number or one of the
non-finite values (NaN, positive infinity, negative infinity). -/
inductive FVal where
  | fin (x : ℝ)
  | nan
  | inf
  | ninf

/-- Model of `np.isfinite`: true exactly on finite values. -/
def FVal.isFinite : FVal → Bool
  | .fin _ => true
  | _ => false

/-- Extract the real value of a finite `FVal` (junk value 0 otherwise; only
ever used after the finiteness validation has passed). -/
def FVal.toReal : FVal → ℝ
  | .fin x => x
  | _ => 0

/-- Model of `np.clip(x, lo, hi)`: the `lo` bound is applied first, then `hi`. -/
def npClip (x lo hi : ℝ) : ℝ := min (max x lo) hi

/-- Elementwise combination of four equal-length arrays, as produced by the
broadcast arithmetic in both metric variants. -/
def zipWith4 (f : α → β → γ → δ → ε) : List α → List β → List γ → List δ → List ε
  | a :: as, b :: bs, c :: cs, d :: ds => f a b c d :: zipWith4 f as bs cs ds
  | _, _, _, _ => []

/-- One row of the angular-distance computation shared by both variants of
`src/losses.py`: the clamped unit-vector dot product
`sin(zen1)·sin(zen2)·(cos(az1)·cos(az2) + sin(az1)·sin(az2)) + cos(zen1)·cos(zen2)`
followed by `abs ∘ arccos`. -/
noncomputable def angularDistance (az1 zen1 az2 zen2 : ℝ) : ℝ :=
  |Real.arccos (npClip
    (Real.sin zen1 * Real.sin zen2 *
        (Real.cos az1 * Real.cos az2 + Real.sin az1 * Real.sin az2) +
      Real.cos zen1 * Real.cos zen2) (-1) 1)|

/-- Model of `np.average` / `torch.mean` over a 1-d array: the empty mean is
the IEEE NaN (`0/0`), otherwise the finite arithmetic mean. -/
noncomputable def listMeanFVal : List ℝ → FVal
  | [] => .nan
  | l => .fin (l.sum / l.length)

/-- The function `angular_dist_score` from `src/losses.py`: validates that all four input
arrays are elementwise finite (raising `ValueError` otherwise, modelled by
`Except.error`), then returns the mean of the per-row angular distances. -/
noncomputable def angular_dist_score (az_true zen_true az_pred zen_pred : List FVal) :
    Except String FVal :=
  if az_true.all FVal.isFinite && zen_true.all FVal.isFinite
      && az_pred.all FVal.isFinite && zen_pred.all FVal.isFinite then
    .ok (listMeanFVal (zipWith4 angularDistance (az_true.map FVal.toReal)
      (zen_true.map FVal.toReal) (az_pred.map FVal.toReal) (zen_pred.map FVal.toReal)))
  else
    .error "All arguments must be finite"

/-- The function `angular_dist_loss` from `src/losses.py`: the differentiable torch
variant; its `[N, 2]` tensors are modelled as lists of
(azimuth, zenith) pairs, columns extracted as in `y_true[:, 0]` etc.
No finiteness validation is performed. -/
noncomputable def angular_dist_loss (y_pred y_true : List (ℝ × ℝ)) : FVal :=
  listMeanFVal (zipWith4 angularDistance (y_true.map Prod.fst) (y_true.map Prod.snd)
    (y_pred.map Prod.fst) (y_pred.map Prod.snd))

/-! ### Basic lemmas about the metric embedding -/

@[simp]
theorem isFinite_fin (x : ℝ) : (FVal.fin x).isFinite = true := rfl

@[simp]
theorem toReal_fin (x : ℝ) : (FVal.fin x).toReal = x := rfl

@[simp]
theorem all_isFinite_map_fin (l : List ℝ) :
    (l.map FVal.fin).all FVal.isFinite = true := by
  simp [List.all_eq_true]

@[simp]
theorem map_toReal_map_fin (l : List ℝ) :
    (l.map FVal.fin).map FVal.toReal = l := by
  induction l with
  | nil => rfl
  | cons a t ih => simp [ih]

theorem zipWith4_length (f : α → β → γ → δ → ε) :
    ∀ (a : List α) (b : List β) (c : List γ) (d : List δ),
      (zipWith4 f a b c d).length =
        min (min (min a.length b.length) c.length) d.length
  | [], _, _, _ => by cases ‹List β› <;> cases ‹List γ› <;> cases ‹List δ› <;>
      simp [zipWith4]
  | _ :: _, [], _, _ => by simp [zipWith4]
  | _ :: _, _ :: _, [], _ => by simp [zipWith4]
  | _ :: _, _ :: _, _ :: _, [] => by simp [zipWith4]
  | a :: as, b :: bs, c :: cs, d :: ds => by
    simp [zipWith4, zipWith4_length f as bs cs ds]
    omega

@[simp]
theorem zipWith4_nil_left (f : α → β → γ → δ → ε) (b : List β) (c : List γ) (d : List δ) :
    zipWith4 f [] b c d = [] := by
  cases b <;> cases c <;> cases d <;> rfl

@[simp]
theorem zipWith4_nil_2 (f : α → β → γ → δ → ε) (a : List α) (c : List γ) (d : List δ) :
    zipWith4 f a [] c d = [] := by
  cases a <;> cases c <;> cases d <;> rfl

@[simp]
theorem zipWith4_nil_3 (f : α → β → γ → δ → ε) (a : List α) (b : List β) (d : List δ) :
    zipWith4 f a b [] d = [] := by
  cases a <;> cases b <;> cases d <;> rfl

@[simp]
theorem zipWith4_nil_4 (f : α → β → γ → δ → ε) (a : List α) (b : List β) (c : List γ) :
    zipWith4 f a b c [] = [] := by
  cases a <;> cases b <;> cases c <;> rfl

theorem zipWith4_swap (f : α → α → α → α → ε) (hf : ∀ a b c d, f a b c d = f c d a b) :
    ∀ (a b c d : List α), zipWith4 f a b c d = zipWith4 f c d a b
  | [], _, _, _ => by simp
  | _ :: _, [], _, _ => by simp
  | _ :: _, _ :: _, [], _ => by simp
  | _ :: _, _ :: _, _ :: _, [] => by simp
  | a :: as, b :: bs, c :: cs, d :: ds => by
    simp only [zipWith4]
    rw [hf, zipWith4_swap f hf as bs cs ds]

theorem forall_mem_zipWith4 (f : α → β → γ → δ → ε) (P : ε → Prop)
    (hP : ∀ a b c d, P (f a b c d)) :
    ∀ (a : List α) (b : List β) (c : List γ) (d : List δ), ∀ x ∈ zipWith4 f a b c d, P x
  | [], _, _, _ => by simp
  | _ :: _, [], _, _ => by simp
  | _ :: _, _ :: _, [], _ => by simp
  | _ :: _, _ :: _, _ :: _, [] => by simp
  | a :: as, b :: bs, c :: cs, d :: ds => by
    intro x hx
    rcases List.mem_cons.mp hx with h | h
    · exact h ▸ hP a b c d
    · exact forall_mem_zipWith4 f P hP as bs cs ds x h

theorem angularDistance_nonneg (a1 z1 a2 z2 : ℝ) : 0 ≤ angularDistance a1 z1 a2 z2 :=
  abs_nonneg _

theorem angularDistance_le_pi (a1 z1 a2 z2 : ℝ) : angularDistance a1 z1 a2 z2 ≤ Real.pi := by
  rw [angularDistance, abs_of_nonneg (Real.arccos_nonneg _)]
  exact Real.arccos_le_pi _

theorem angularDistance_symm (a1 z1 a2 z2 : ℝ) :
    angularDistance a1 z1 a2 z2 = angularDistance a2 z2 a1 z1 := by
  have h : Real.sin z1 * Real.sin z2 *
        (Real.cos a1 * Real.cos a2 + Real.sin a1 * Real.sin a2) +
      Real.cos z1 * Real.cos z2 =
      Real.sin z2 * Real.sin z1 *
        (Real.cos a2 * Real.cos a1 + Real.sin a2 * Real.sin a1) +
      Real.cos z2 * Real.cos z1 := by ring
  rw [angularDistance, angularDistance, h]

theorem angularDistance_self (a z : ℝ) : angularDistance a z a z = 0 := by
  have h1 : Real.sin z * Real.sin z *
        (Real.cos a * Real.cos a + Real.sin a * Real.sin a) +
      Real.cos z * Real.cos z = 1 := by
    have ha := Real.sin_sq_add_cos_sq a
    have hz := Real.sin_sq_add_cos_sq z
    nlinarith [ha, hz]
  have h2 : npClip 1 (-1) 1 = 1 := by
    rw [npClip, max_eq_left (by norm_num : (-1 : ℝ) ≤ 1), min_self]
  rw [angularDistance, h1, h2, Real.arccos_one, abs_zero]

theorem zipWith4_diag_replicate (az : List ℝ) :
    ∀ zen : List ℝ, zipWith4 angularDistance az zen az zen =
      List.replicate (min az.length zen.length) 0 := by
  induction az with
  | nil => intro zen; simp
  | cons a as ih =>
    intro zen
    cases zen with
    | nil => simp
    | cons z zs =>
      simp only [zipWith4, ih zs, angularDistance_self, List.length_cons,
        Nat.succ_min_succ, List.replicate_succ]

theorem listMeanFVal_ne_nil (l : List ℝ) (h : l ≠ []) :
    listMeanFVal l = .fin (l.sum / l.length) := by
  cases l with
  | nil => exact absurd rfl h
  | cons x xs => rfl

theorem listMeanFVal_replicate_zero (n : Nat) (hn : n ≠ 0) :
    listMeanFVal (List.replicate n (0 : ℝ)) = .fin 0 := by
  rw [listMeanFVal_ne_nil _ (by simp [hn])]
  simp [List.sum_replicate]

/-! ### Claims about the angular-distance metric -/

/-- Claim C1: for every pair of equal-length sequences of finite
(azimuth, zenith) direction pairs, `angular_dist_score` applied to the four
component arrays and `angular_dist_loss` applied to the corresponding [N,2]
azimuth-then-zenith tensors return the same scalar (exactly equal in the
real-number model). -/
theorem claim_C1_cross_variant_equiv (az_t zen_t az_p zen_p : List ℝ)
    (h1 : zen_t.length = az_t.length) (h2 : az_p.length = az_t.length)
    (h3 : zen_p.length = az_t.length) :
    angular_dist_score (az_t.map .fin) (zen_t.map .fin) (az_p.map .fin) (zen_p.map .fin)
      = .ok (angular_dist_loss (az_p.zip zen_p) (az_t.zip zen_t)) := by
  rw [angular_dist_score, angular_dist_loss]
  simp only [all_isFinite_map_fin, Bool.and_self, map_toReal_map_fin, if_true]
  rw [List.map_fst_zip az_t zen_t h1.ge, List.map_snd_zip az_t zen_t h1.le,
    List.map_fst_zip az_p zen_p (h3.trans h2.symm).ge,
    List.map_snd_zip az_p zen_p (h3.trans h2.symm).le]

/-- Witness for C1 at a concrete input. -/
theorem claim_C1_cross_variant_equiv_witness :
    angular_dist_score ([0].map .fin) ([0].map .fin) ([0].map .fin) ([0].map .fin)
      = .ok (angular_dist_loss ([(0 : ℝ)].zip [(0 : ℝ)]) ([(0 : ℝ)].zip [(0 : ℝ)])) :=
  claim_C1_cross_variant_equiv [0] [0] [0] [0] rfl rfl rfl

/-- Claim C4: `angular_dist_score` raises exactly when some element of one of
its four input arrays is non-finite (NaN or ±infinity); in that case the
error, not a NaN sentinel, is the outcome. -/
theorem claim_C4_nonfinite_rejection (a b c d : List FVal) :
    angular_dist_score a b c d = .error "All arguments must be finite"
      ↔ ∃ v, (v ∈ a ∨ v ∈ b ∨ v ∈ c ∨ v ∈ d) ∧ v.isFinite = false := by
  rw [angular_dist_score]
  by_cases h : (a.all FVal.isFinite && b.all FVal.isFinite && c.all FVal.isFinite
      && d.all FVal.isFinite) = true
  · rw [if_pos h]
    simp only [Bool.and_eq_true, List.all_eq_true] at h
    obtain ⟨⟨⟨ha, hb⟩, hc⟩, hd⟩ := h
    constructor
    · intro heq
      exact absurd heq (by simp)
    · rintro ⟨v, hv, hfin⟩
      rcases hv with hv | hv | hv | hv
      · rw [ha v hv] at hfin; cases hfin
      · rw [hb v hv] at hfin; cases hfin
      · rw [hc v hv] at hfin; cases hfin
      · rw [hd v hv] at hfin; cases hfin
  · rw [if_neg h]
    simp only [Bool.and_eq_true, List.all_eq_true, not_and_or] at h
    constructor
    · intro _
      push_neg at h
      rcases h with ((⟨v, hv, hfin⟩ | ⟨v, hv, hfin⟩) | ⟨v, hv, hfin⟩) | ⟨v, hv, hfin⟩
      · exact ⟨v, Or.inl hv, by simpa using hfin⟩
      · exact ⟨v, Or.inr (Or.inl hv), by simpa using hfin⟩
      · exact ⟨v, Or.inr (Or.inr (Or.inl hv)), by simpa using hfin⟩
      · exact ⟨v, Or.inr (Or.inr (Or.inr hv)), by simpa using hfin⟩
    · intro _
      rfl

/-- Claim C5: for entirely finite, equal-length, non-empty inputs,
`angular_dist_score` neither raises nor returns NaN, and the resulting mean
lies in the closed interval `[0, π]`. -/
theorem claim_C5_metric_range (az_t zen_t az_p zen_p : List ℝ)
    (h1 : zen_t.length = az_t.length) (h2 : az_p.length = az_t.length)
    (h3 : zen_p.length = az_t.length) (hne : az_t ≠ []) :
    ∃ r : ℝ, angular_dist_score (az_t.map .fin) (zen_t.map .fin) (az_p.map .fin)
        (zen_p.map .fin) = .ok (.fin r) ∧ 0 ≤ r ∧ r ≤ Real.pi := by
  rw [angular_dist_score]
  simp only [all_isFinite_map_fin, Bool.and_self, map_toReal_map_fin, if_true]
  have hlen : (zipWith4 angularDistance az_t zen_t az_p zen_p).length = az_t.length := by
    rw [zipWith4_length]
    omega
  have hmem : ∀ x ∈ zipWith4 angularDistance az_t zen_t az_p zen_p,
      0 ≤ x ∧ x ≤ Real.pi :=
    forall_mem_zipWith4 angularDistance _
      (fun a b c d => ⟨angularDistance_nonneg a b c d, angularDistance_le_pi a b c d⟩)
      az_t zen_t az_p zen_p
  set l := zipWith4 angularDistance az_t zen_t az_p zen_p with hl
  have hlne : l ≠ [] := by
    intro hnil
    rw [hnil] at hlen
    exact hne (List.length_eq_zero.mp hlen.symm)
  have hlpos : (0 : ℝ) < l.length := by
    have := List.length_pos.mpr hlne
    exact_mod_cast this
  refine ⟨l.sum / l.length, ?_, ?_, ?_⟩
  · rw [listMeanFVal_ne_nil l hlne]
  · refine div_nonneg ?_ (Nat.cast_nonneg _)
    have h0 := List.card_nsmul_le_sum l 0 (fun x hx => (hmem x hx).1)
    simpa using h0
  · rw [div_le_iff₀ hlpos]
    have hs := List.sum_le_card_nsmul l Real.pi (fun x hx => (hmem x hx).2)
    rw [nsmul_eq_mul] at hs
    linarith [hs]

/-- Witness for C5 at a concrete input. -/
theorem claim_C5_metric_range_witness :
    ∃ r : ℝ, angular_dist_score ([0].map .fin) ([0].map .fin) ([0].map .fin)
        ([0].map .fin) = .ok (.fin r) ∧ 0 ≤ r ∧ r ≤ Real.pi :=
  claim_C5_metric_range [0] [0] [0] [0] rfl rfl rfl (by simp)

/-- Counterexample to claim C7 as stated: on the empty (hence vacuously
finite) azimuth/zenith arrays, `angular_dist_score` returns the NaN produced
by the empty mean (`np.average` of an empty array), not the value 0. -/
theorem claim_C7_counterexample :
    angular_dist_score [] [] [] [] = .ok .nan ∧
      (Except.ok FVal.nan : Except String FVal) ≠ .ok (.fin 0) := by
  constructor
  · rfl
  · intro h
    injection h with h2
    exact FVal.noConfusion h2

/-- Claim C7, amended: for every NON-EMPTY pair of equal-length finite
azimuth/zenith arrays, calling `angular_dist_score` with truth and prediction
both equal to `(az, zen)` returns exactly 0. -/
theorem claim_C7_identity_zero (az zen : List ℝ) (hlen : az.length = zen.length)
    (hne : az ≠ []) :
    angular_dist_score (az.map .fin) (zen.map .fin) (az.map .fin) (zen.map .fin)
      = .ok (.fin 0) := by
  rw [angular_dist_score]
  simp only [all_isFinite_map_fin, Bool.and_self, map_toReal_map_fin, if_true]
  rw [zipWith4_diag_replicate az zen,
    listMeanFVal_replicate_zero _ (by simp [← hlen, List.length_eq_zero, hne])]

/-- Witness for the amended C7 at a concrete input. -/
theorem claim_C7_identity_zero_witness :
    angular_dist_score ([0].map .fin) ([0].map .fin) ([0].map .fin) ([0].map .fin)
      = .ok (.fin 0) :=
  claim_C7_identity_zero [0] [0] rfl (by simp)

/-- Claim C8: swapping the "true" and "predicted" argument pairs leaves both
metric variants unchanged (proved with no finiteness restriction, which
covers in particular all finite inputs). -/
theorem claim_C8_symmetry :
    (∀ a b c d : List FVal, angular_dist_score a b c d = angular_dist_score c d a b) ∧
      (∀ p t : List (ℝ × ℝ), angular_dist_loss p t = angular_dist_loss t p) := by
  constructor
  · intro a b c d
    rw [angular_dist_score, angular_dist_score]
    have hsw := zipWith4_swap angularDistance angularDistance_symm
      (a.map FVal.toReal) (b.map FVal.toReal) (c.map FVal.toReal) (d.map FVal.toReal)
    cases ha : a.all FVal.isFinite <;> cases hb : b.all FVal.isFinite <;>
      cases hc : c.all FVal.isFinite <;> cases hd : d.all FVal.isFinite <;>
      simp [ha, hb, hc, hd, hsw]
  · intro p t
    rw [angular_dist_loss, angular_dist_loss,
      zipWith4_swap angularDistance angularDistance_symm]

/-- Claim C9: for the single antipodal pair on the equator
(azimuth 0 vs π, both zeniths π/2), the score is exactly π. -/
theorem claim_C9_antipodal_example :
    angular_dist_score [FVal.fin 0] [FVal.fin (Real.pi / 2)] [FVal.fin Real.pi]
      [FVal.fin (Real.pi / 2)] = .ok (.fin Real.pi) := by
  have hd : angularDistance 0 (Real.pi / 2) Real.pi (Real.pi / 2) = Real.pi := by
    have hclip : npClip
        (Real.sin (Real.pi / 2) * Real.sin (Real.pi / 2) *
            (Real.cos 0 * Real.cos Real.pi + Real.sin 0 * Real.sin Real.pi) +
          Real.cos (Real.pi / 2) * Real.cos (Real.pi / 2)) (-1) 1 = -1 := by
      rw [Real.sin_pi_div_two, Real.cos_pi_div_two, Real.cos_zero, Real.cos_pi,
        Real.sin_zero, Real.sin_pi, npClip]
      norm_num
    rw [angularDistance, hclip, Real.arccos_neg_one, abs_of_nonneg Real.pi_pos.le]
  rw [angular_dist_score]
  simp only [List.all_cons, List.all_nil, isFinite_fin, Bool.and_true, Bool.and_self,
    if_true, List.map_cons, List.map_nil, toReal_fin]
  rw [show zipWith4 angularDistance [(0 : ℝ)] [Real.pi / 2] [Real.pi] [Real.pi / 2]
      = [angularDistance 0 (Real.pi / 2) Real.pi (Real.pi / 2)] from rfl, hd]
  rw [listMeanFVal_ne_nil _ (by simp)]
  norm_num

/-! ### Embedding of src/datasets.py -/

/-- A pandas DataFrame with integer-valued columns: an explicit list of row
index labels plus named columns (an order-preserving association list). -/
structure Table where
  index : List Int
  cols : List (String × List Int)
deriving DecidableEq

/-- Model of `len(data)`: the number of rows. -/
def Table.nRows (t : Table) : Nat := t.index.length

/-- Column read `data[name]`; `none` models the `KeyError` raised on a
missing column. -/
def Table.getCol? (t : Table) (name : String) : Option (List Int) :=
  (t.cols.find? (fun c => c.1 == name)).map Prod.snd

/-- Column assignment `data[name] = values`: overwrite the column in place
when it exists, otherwise append it. -/
def Table.setCol (t : Table) (name : String) (v : List Int) : Table :=
  if t.cols.any (fun c => c.1 == name) then
    { t with cols := t.cols.map (fun c => if c.1 == name then (c.1, v) else c) }
  else
    { t with cols := t.cols ++ [(name, v)] }

/-- Model of `data.loc[labels, name] = v`: label-based row write.  Every requested
label must be present in the index, otherwise pandas raises `KeyError`
before assigning anything (modelled by `none`); on success, every row whose
index label occurs in `labels` gets the value `v` in column `name`. -/
def Table.locSet (t : Table) (labels : List Nat) (name : String) (v : Int) :
    Option Table :=
  if labels.all (fun p => t.index.any (fun lbl => lbl == Int.ofNat p)) then
    some { t with cols := t.cols.map (fun c =>
      if c.1 == name then
        (c.1, (t.index.zip c.2).map
          (fun rc => if labels.any (fun p => Int.ofNat p == rc.1) then v else rc.2))
      else c) }
  else
    none

/-- The names of the columns of a table. -/
def Table.colNames (t : Table) : List String := t.cols.map Prod.fst

/-- Model of `np.unique(y)`: the sorted distinct values of `y`. -/
def classesOf (y : List Int) : List Int :=
  y.dedup.insertionSort (· ≤ ·)

/-- The distinct values of `y` in order of first appearance.  Sklearn's
`StratifiedKFold._make_test_folds` encodes classes by order of appearance
(`y_encoded = class_perm[y_inv]`, where `class_perm` inverts the
first-occurrence indices of the lexicographically sorted classes). -/
def classesByAppearance (y : List Int) : List Int :=
  y.foldl (fun acc v => if acc.contains v then acc else acc ++ [v]) []

/-- The labels `y` encoded as class ranks in order of first appearance
(the `y_encoded` of sklearn's `StratifiedKFold._make_test_folds`). -/
def yEncode (y : List Int) : List Nat :=
  y.map (fun v => (classesByAppearance y).findIdx (fun c => c == v))

/-- The elements of `l` at positions `i, i+s, i+2s, …` (numpy's `l[i::s]`). -/
def sliceStep (l : List α) (i s : Nat) : List α :=
  (l.enum.filter (fun p => p.1 % s == i)).map Prod.snd

/-- Model of `np.sort(y_encoded)`. -/
def yOrder (y : List Int) : List Nat :=
  (yEncode y).insertionSort (· ≤ ·)

/-- The count `allocation[i][k]`: how many members of class `k` the test slice of fold
`i` receives (`np.bincount(y_order[i::n_splits], minlength=n_classes)[k]`). -/
def allocationCount (y : List Int) (s i k : Nat) : Nat :=
  (sliceStep (yOrder y) i s).count k

/-- Model of `np.arange(n_splits).repeat(allocation[:, k])`: the fold numbers handed
out to the members of class `k`, before shuffling. -/
def foldsForClass (y : List Int) (s k : Nat) : List Nat :=
  ((List.range s).map (fun i => List.replicate (allocationCount y s i k) i)).flatten

/-- How many positions before `j` hold class `k`: the offset into the
(shuffled) `folds_for_class` array that numpy's fancy assignment
`test_folds[y_encoded == k] = folds_for_class` gives to position `j`. -/
def classRank (enc : List Nat) (k j : Nat) : Nat :=
  (enc.take j).count k

/-- Model of `StratifiedKFold._make_test_folds`: for every row position, the index of
the unique fold whose test set contains it.  `shuffle k` stands for the
`random_state`-seeded `rng.shuffle` invocation applied to class `k`'s fold
numbers (`shuffle=True` in the source). -/
def testFoldsOf (shuffle : Nat → List Nat → List Nat) (y : List Int) (s : Nat) :
    List Nat :=
  (List.range y.length).map (fun j =>
    (shuffle ((yEncode y).getD j 0) (foldsForClass y s ((yEncode y).getD j 0))).getD
      (classRank (yEncode y) ((yEncode y).getD j 0) j) 0)

/-- The test-index array of fold `f`: the positions `p` with
`test_folds[p] = f` (what `kf.split` yields as `v_`). -/
def testIndices (tf : List Nat) (f : Nat) : List Nat :=
  (List.range tf.length).filter (fun p => tf.getD p 0 == f)

/-- The loop `for f, (t_, v_) in enumerate(kf.split(...)):
data.loc[v_, "fold"] = f`, threading the pandas `KeyError` as an
`Except.error` that carries the table state at the moment of the raise. -/
def foldAssignLoop (tf : List Nat) : List Nat → Table → Except Table Table
  | [], t => .ok t
  | f :: fs, t =>
    match t.locSet (testIndices tf f) "fold" (Int.ofNat f) with
    | none => .error t
    | some t2 => foldAssignLoop tf fs t2

/-- The function `create_folds` from `src/datasets.py`.

`qcutLog10` models the external pandas/numpy binning
`pd.qcut(np.log10(·), 10, labels=False)` applied to the `n_pulses` column;
`none` models the `ValueError: Bin edges must be unique` that the real
`pd.qcut` (default `duplicates='raise'`) raises when the quantile edges
collide — e.g. for constant `log10(n_pulses)` or an empty table — and
that raise happens after `n_pulses` is written but before `bins` and
`fold` exist.  `shuffle` models the `random_state`-seeded `rng.shuffle`
of sklearn's `StratifiedKFold` (one invocation per class).  Python
exceptions are modelled as `Except.error` carrying the — possibly already
mutated — table at the moment of the raise: after the binning, the source
writes `fold = -1`, then `StratifiedKFold.__init__` rejects
`n_splits < 2`, and the first iteration of `kf.split` rejects
`n_splits > n_samples` and the case in which every class has fewer than
`n_splits` members (any smaller check only warns). -/
def create_folds (qcutLog10 : List Int → Option (List Int))
    (shuffle : Nat → List Nat → List Nat) (data : Table)
    (n_splits : Nat := 5) : Except Table Table :=
  match data.getCol? "last_pulse_index", data.getCol? "first_pulse_index" with
  | some lastp, some firstp =>
    let n_pulses := List.zipWith (fun a b => a - b) lastp firstp
    let d1 := data.setCol "n_pulses" n_pulses
    match qcutLog10 n_pulses with
    | none => .error d1
    | some binsv =>
      let d2 := d1.setCol "bins" binsv
      let d3 := d2.setCol "fold" (List.replicate d2.nRows (-1))
      if n_splits < 2 then .error d3
      else if d3.nRows < n_splits then .error d3
      else
        let y := (d3.getCol? "bins").getD []
        if (classesOf y).all (fun c => decide (y.count c < n_splits)) then .error d3
        else foldAssignLoop (testFoldsOf shuffle y n_splits) (List.range n_splits) d3
  | _, _ => .error data

/-! ### Lemmas about the table operations -/

theorem find?_map_keyPres (m : String) (g : String × List Int → String × List Int)
    (hg : ∀ c, (g c).1 = c.1) :
    ∀ cols : List (String × List Int),
      (cols.map g).find? (fun c => c.1 == m) =
        (cols.find? (fun c => c.1 == m)).map g
  | [] => rfl
  | c :: cs => by
    rw [List.map_cons, List.find?_cons, List.find?_cons,
      show ((g c).1 == m) = (c.1 == m) by rw [hg]]
    cases h : (c.1 == m) with
    | true => rfl
    | false => exact find?_map_keyPres m g hg cs

theorem map_fst_map_keyPres (g : String × List Int → String × List Int)
    (hg : ∀ c, (g c).1 = c.1) :
    ∀ cols : List (String × List Int), (cols.map g).map Prod.fst = cols.map Prod.fst
  | [] => rfl
  | c :: cs => by
    rw [List.map_cons, List.map_cons, List.map_cons, map_fst_map_keyPres g hg cs]
    rw [show Prod.fst (g c) = Prod.fst c from hg c]

@[simp]
theorem index_setCol (t : Table) (name : String) (v : List Int) :
    (t.setCol name v).index = t.index := by
  rw [Table.setCol]
  split <;> rfl

@[simp]
theorem nRows_setCol (t : Table) (name : String) (v : List Int) :
    (t.setCol name v).nRows = t.nRows := by
  rw [Table.nRows, Table.nRows, index_setCol]

theorem setCol_keyPres (name : String) (v : List Int) :
    ∀ c : String × List Int,
      (if c.1 == name then ((c.1, v) : String × List Int) else c).1 = c.1 := by
  intro c
  split <;> rfl

theorem getCol?_setCol_self (t : Table) (name : String) (v : List Int) :
    (t.setCol name v).getCol? name = some v := by
  rw [Table.setCol]
  by_cases h : t.cols.any (fun c => c.1 == name) = true
  · rw [if_pos h]
    simp only [Table.getCol?]
    rw [find?_map_keyPres name _ (setCol_keyPres name v)]
    cases hfind : t.cols.find? (fun c => c.1 == name) with
    | none =>
      obtain ⟨c0, hc0mem, hc0⟩ := List.any_eq_true.mp h
      exact absurd hc0 (by simpa using List.find?_eq_none.mp hfind c0 hc0mem)
    | some c1 =>
      have hp := List.find?_some hfind
      simp only [Option.map_some']
      rw [show (if c1.1 == name then ((c1.1, v) : String × List Int) else c1) = (c1.1, v)
        from if_pos hp]
  · rw [if_neg h]
    simp only [Table.getCol?]
    have hnone : t.cols.find? (fun c => c.1 == name) = none :=
      List.find?_eq_none.mpr (fun x hx hpx => h (List.any_eq_true.mpr ⟨x, hx, hpx⟩))
    rw [List.find?_append, hnone, Option.none_or, List.find?_singleton,
      if_pos (show ((name, v).1 == name) = true by simp)]
    rfl

theorem getCol?_setCol_ne (t : Table) {name m : String} (v : List Int) (h : m ≠ name) :
    (t.setCol name v).getCol? m = t.getCol? m := by
  rw [Table.setCol]
  by_cases hany : t.cols.any (fun c => c.1 == name) = true
  · rw [if_pos hany]
    simp only [Table.getCol?]
    rw [find?_map_keyPres m _ (setCol_keyPres name v)]
    cases hfind : t.cols.find? (fun c => c.1 == m) with
    | none => rfl
    | some c1 =>
      have hc1 : c1.1 = m := by simpa using List.find?_some hfind
      simp only [Option.map_some']
      rw [show (if c1.1 == name then ((c1.1, v) : String × List Int) else c1) = c1
        from if_neg (by simp [hc1, h])]
  · rw [if_neg hany]
    simp only [Table.getCol?]
    have hnm : ¬((name, v).1 == m) = true := fun hbeq => h (Eq.symm (by simpa using hbeq))
    rw [List.find?_append, List.find?_singleton, if_neg hnm, Option.or_none]

theorem colNames_setCol (t : Table) (name : String) (v : List Int) :
    ∀ m ∈ (t.setCol name v).colNames, m ∈ t.colNames ∨ m = name := by
  intro m hm
  rw [Table.setCol] at hm
  by_cases hany : t.cols.any (fun c => c.1 == name) = true
  · rw [if_pos hany] at hm
    left
    have heq : (t.cols.map (fun c =>
        if c.1 == name then ((c.1, v) : String × List Int) else c)).map Prod.fst
        = t.cols.map Prod.fst :=
      map_fst_map_keyPres _ (setCol_keyPres name v) t.cols
    rw [show ({ t with cols := t.cols.map (fun c =>
        if c.1 == name then ((c.1, v) : String × List Int) else c) } : Table).colNames
      = (t.cols.map (fun c =>
        if c.1 == name then ((c.1, v) : String × List Int) else c)).map Prod.fst
      from rfl, heq] at hm
    exact hm
  · rw [if_neg hany] at hm
    rw [show ({ t with cols := t.cols ++ [(name, v)] } : Table).colNames
      = (t.cols ++ [(name, v)]).map Prod.fst from rfl, List.map_append] at hm
    rcases List.mem_append.mp hm with hm | hm
    · exact Or.inl hm
    · right
      simpa using hm

theorem locSet_some_labels {t t' : Table} {labels : List Nat} {name : String} {v : Int}
    (h : t.locSet labels name v = some t') :
    ∀ p ∈ labels, (Int.ofNat p) ∈ t.index := by
  rw [Table.locSet] at h
  split at h
  case isTrue hc =>
    intro p hp
    obtain ⟨lbl, hlblmem, hlbl⟩ := List.any_eq_true.mp (List.all_eq_true.mp hc p hp)
    exact (eq_of_beq hlbl) ▸ hlblmem
  case isFalse hc => cases h

theorem locSet_some_spec {t t' : Table} {labels : List Nat} {name : String} {v : Int}
    (h : t.locSet labels name v = some t') :
    t'.index = t.index ∧
    (∀ m, m ≠ name → t'.getCol? m = t.getCol? m) ∧
    t'.colNames = t.colNames ∧
    ∀ col, t.getCol? name = some col →
      t'.getCol? name = some ((t.index.zip col).map
        (fun rc => if labels.any (fun p => Int.ofNat p == rc.1) then v else rc.2)) := by
  rw [Table.locSet] at h
  split at h
  case isFalse hc => cases h
  case isTrue hc =>
    injection h with h
    subst h
    have hkey : ∀ c : String × List Int,
        ((if c.1 == name then
          ((c.1, (t.index.zip c.2).map
            (fun rc => if labels.any (fun p => Int.ofNat p == rc.1) then v else rc.2)) :
              String × List Int)
        else c)).1 = c.1 := by
      intro c
      split <;> rfl
    refine ⟨rfl, ?_, ?_, ?_⟩
    · intro m hm
      simp only [Table.getCol?]
      rw [find?_map_keyPres m _ hkey]
      cases hfind : t.cols.find? (fun c => c.1 == m) with
      | none => rfl
      | some c1 =>
        have hc1 : c1.1 = m := by simpa using List.find?_some hfind
        simp only [Option.map_some']
        rw [if_neg (show ¬(c1.1 == name) = true by simp [hc1]; exact hm)]
    · show (t.cols.map _).map Prod.fst = t.cols.map Prod.fst
      exact map_fst_map_keyPres _ hkey t.cols
    · intro col hcol
      simp only [Table.getCol?] at hcol ⊢
      rw [find?_map_keyPres name _ hkey]
      cases hfind : t.cols.find? (fun c => c.1 == name) with
      | none => rw [hfind] at hcol; cases hcol
      | some c1 =>
        rw [hfind] at hcol
        have hp := List.find?_some hfind
        have hcol2 : c1.2 = col := by simpa using hcol
        simp only [Option.map_some']
        rw [if_pos hp, hcol2]

/-- The value the fold cell of the row labelled `lbl` holds after the folds
`fs` have been assigned in order, starting from cell value `old`. -/
def cellAfter (tf : List Nat) (fs : List Nat) (lbl : Int) (old : Int) : Int :=
  fs.foldl (fun cur f =>
    if (testIndices tf f).any (fun p => Int.ofNat p == lbl) then Int.ofNat f else cur) old

theorem zip_map_cell (h : Int × Int → Int) :
    ∀ (idx c : List Int),
      idx.zip ((idx.zip c).map h) = (idx.zip c).map (fun rc => (rc.1, h rc))
  | [], _ => rfl
  | _ :: _, [] => rfl
  | i :: is, x :: xs => by
    simp only [List.zip_cons_cons, List.map_cons]
    rw [zip_map_cell h is xs]

theorem foldAssignLoop_ok_pres (tf : List Nat) :
    ∀ (fs : List Nat) (t t' : Table),
      foldAssignLoop tf fs t = .ok t' →
      t'.index = t.index ∧ (∀ m, m ≠ "fold" → t'.getCol? m = t.getCol? m) ∧
        t'.colNames = t.colNames
  | [], t, t', h => by
    injection h with h
    subst h
    exact ⟨rfl, fun m _ => rfl, rfl⟩
  | f :: fs, t, t', h => by
    rw [foldAssignLoop] at h
    cases hloc : t.locSet (testIndices tf f) "fold" (Int.ofNat f) with
    | none => rw [hloc] at h; cases h
    | some t2 =>
      rw [hloc] at h
      obtain ⟨hidx2, hpres2, hnames2, _⟩ := locSet_some_spec hloc
      obtain ⟨hidx, hpres, hnames⟩ := foldAssignLoop_ok_pres tf fs t2 t' h
      exact ⟨hidx.trans hidx2, fun m hm => (hpres m hm).trans (hpres2 m hm),
        hnames.trans hnames2⟩

theorem foldAssignLoop_ok_labels (tf : List Nat) :
    ∀ (fs : List Nat) (t t' : Table),
      foldAssignLoop tf fs t = .ok t' →
      ∀ f ∈ fs, ∀ p ∈ testIndices tf f, (Int.ofNat p) ∈ t.index
  | [], _, _, _ => by
    intro f hf
    cases hf
  | f0 :: fs, t, t', h => by
    rw [foldAssignLoop] at h
    cases hloc : t.locSet (testIndices tf f0) "fold" (Int.ofNat f0) with
    | none => rw [hloc] at h; cases h
    | some t2 =>
      rw [hloc] at h
      intro f hf p hp
      rcases List.mem_cons.mp hf with rfl | hf2
      · exact locSet_some_labels hloc p hp
      · have hidx2 := (locSet_some_spec hloc).1
        have hmem := foldAssignLoop_ok_labels tf fs t2 t' h f hf2 p hp
        rwa [hidx2] at hmem

theorem foldAssignLoop_ok_foldCol (tf : List Nat) :
    ∀ (fs : List Nat) (t t' : Table) (fc : List Int),
      t.getCol? "fold" = some fc → fc.length = t.index.length →
      foldAssignLoop tf fs t = .ok t' →
      t'.getCol? "fold" = some ((t.index.zip fc).map
        (fun rc => cellAfter tf fs rc.1 rc.2))
  | [], t, t', fc, hfc, hlen, h => by
    injection h with h
    subst h
    rw [hfc]
    congr 1
    exact (List.map_snd_zip t.index fc hlen.le).symm
  | f :: fs, t, t', fc, hfc, hlen, h => by
    rw [foldAssignLoop] at h
    cases hloc : t.locSet (testIndices tf f) "fold" (Int.ofNat f) with
    | none => rw [hloc] at h; cases h
    | some t2 =>
      rw [hloc] at h
      obtain ⟨hidx2, _, _, hcol2⟩ := locSet_some_spec hloc
      have hfc2 := hcol2 fc hfc
      have hlen2 : ((t.index.zip fc).map
          (fun rc => if (testIndices tf f).any (fun p => Int.ofNat p == rc.1)
            then Int.ofNat f else rc.2)).length = t2.index.length := by
        rw [hidx2, List.length_map, List.length_zip, hlen]
        omega
      have hrec := foldAssignLoop_ok_foldCol tf fs t2 t' _ hfc2 hlen2 h
      rw [hrec, hidx2]
      congr 1
      rw [zip_map_cell (fun rc => if (testIndices tf f).any (fun p => Int.ofNat p == rc.1)
        then Int.ofNat f else rc.2) t.index fc, List.map_map]
      rfl

/-! ### Lemmas about the modelled splitter -/

theorem length_testFoldsOf (sh : Nat → List Nat → List Nat) (y : List Int) (s : Nat) :
    (testFoldsOf sh y s).length = y.length := by
  rw [testFoldsOf, List.length_map, List.length_range]

theorem mem_foldsForClass_lt {y : List Int} {s k x : Nat}
    (hx : x ∈ foldsForClass y s k) : x < s := by
  rw [foldsForClass] at hx
  obtain ⟨l, hl, hxl⟩ := List.mem_flatten.mp hx
  obtain ⟨i, hi, rfl⟩ := List.mem_map.mp hl
  rw [List.eq_of_mem_replicate hxl]
  exact List.mem_range.mp hi

theorem testFoldsOf_lt (sh : Nat → List Nat → List Nat)
    (hsh : ∀ k l, (sh k l).Perm l) (y : List Int) (s : Nat) (hs : 0 < s) :
    ∀ x ∈ testFoldsOf sh y s, x < s := by
  intro x hx
  rw [testFoldsOf] at hx
  obtain ⟨j, hj, hxj⟩ := List.mem_map.mp hx
  rw [List.getD_eq_getElem?_getD] at hxj
  cases hget : (sh ((yEncode y).getD j 0) (foldsForClass y s ((yEncode y).getD j 0)))[
      classRank (yEncode y) ((yEncode y).getD j 0) j]? with
  | none =>
    rw [hget, Option.getD_none] at hxj
    rw [← hxj]
    exact hs
  | some w =>
    rw [hget, Option.getD_some] at hxj
    rw [← hxj]
    exact mem_foldsForClass_lt ((List.Perm.mem_iff (hsh _ _)).mp (List.getElem?_mem hget))

theorem mem_testIndices {tf : List Nat} {f p : Nat} :
    p ∈ testIndices tf f ↔ p < tf.length ∧ tf.getD p 0 = f := by
  rw [testIndices, List.mem_filter, List.mem_range]
  simp only [beq_iff_eq]

theorem cellAfter_cond (tf : List Nat) (f p : Nat) (hp : p < tf.length) :
    ((testIndices tf f).any (fun q => Int.ofNat q == Int.ofNat p)) = true ↔
      tf.getD p 0 = f := by
  constructor
  · intro h
    obtain ⟨q, hq, hbeq⟩ := List.any_eq_true.mp h
    have hqp : q = p := Int.ofNat.inj (eq_of_beq hbeq)
    subst hqp
    exact (mem_testIndices.mp hq).2
  · intro h
    exact List.any_eq_true.mpr ⟨p, mem_testIndices.mpr ⟨hp, h⟩, by simp⟩

theorem cellAfter_of_notmem (tf : List Nat) (p : Nat) (hp : p < tf.length) :
    ∀ (fs : List Nat) (old : Int), tf.getD p 0 ∉ fs →
      cellAfter tf fs (Int.ofNat p) old = old
  | [], _, _ => rfl
  | f :: fs, old, hnot => by
    rw [cellAfter, List.foldl_cons]
    rw [if_neg (fun hc => hnot (by
      rw [(cellAfter_cond tf f p hp).mp hc]
      exact List.mem_cons_self f fs))]
    exact cellAfter_of_notmem tf p hp fs old
      (fun hmem => hnot (List.mem_cons_of_mem f hmem))

theorem cellAfter_of_mem (tf : List Nat) (p : Nat) (hp : p < tf.length) :
    ∀ (fs : List Nat) (old : Int), tf.getD p 0 ∈ fs →
      cellAfter tf fs (Int.ofNat p) old = Int.ofNat (tf.getD p 0)
  | [], _, hmem => absurd hmem (List.not_mem_nil _)
  | f :: fs, old, hmem => by
    rw [cellAfter, List.foldl_cons]
    by_cases hf : tf.getD p 0 = f
    · rw [if_pos ((cellAfter_cond tf f p hp).mpr hf)]
      by_cases hmem2 : tf.getD p 0 ∈ fs
      · exact cellAfter_of_mem tf p hp fs _ hmem2
      · rw [hf]
        exact cellAfter_of_notmem tf p hp fs _ hmem2
    · rw [if_neg (fun hc => hf ((cellAfter_cond tf f p hp).mp hc))]
      rcases List.mem_cons.mp hmem with h | h
      · exact absurd h hf
      · exact cellAfter_of_mem tf p hp fs old h

theorem mem_index_range (idx : List Int) (n : Nat) (hlen : idx.length = n)
    (hsub : ∀ p, p < n → (Int.ofNat p) ∈ idx) :
    ∀ lbl ∈ idx, ∃ p, p < n ∧ lbl = Int.ofNat p := by
  classical
  have hS : ((Finset.range n).image (fun p => Int.ofNat p)) ⊆ idx.toFinset := by
    intro x hx
    obtain ⟨p, hp, rfl⟩ := Finset.mem_image.mp hx
    exact List.mem_toFinset.mpr (hsub p (Finset.mem_range.mp hp))
  have hcardS : ((Finset.range n).image (fun p => Int.ofNat p)).card = n := by
    rw [Finset.card_image_of_injective _ (fun a b hab => Int.ofNat.inj hab)]
    exact Finset.card_range n
  have hcardIdx : idx.toFinset.card ≤ n := hlen ▸ idx.toFinset_card_le
  have heq : ((Finset.range n).image (fun p => Int.ofNat p)) = idx.toFinset :=
    Finset.eq_of_subset_of_card_le hS (by rw [hcardS]; exact hcardIdx)
  intro lbl hlbl
  have hmem : lbl ∈ ((Finset.range n).image (fun p => Int.ofNat p)) := by
    rw [heq]
    exact List.mem_toFinset.mpr hlbl
  obtain ⟨p, hp, hpl⟩ := Finset.mem_image.mp hmem
  exact ⟨p, Finset.mem_range.mp hp, hpl.symm⟩

theorem getCol?_length {t : Table} {name : String} {col : List Int}
    (hwf : ∀ c ∈ t.cols, c.2.length = t.nRows)
    (h : t.getCol? name = some col) : col.length = t.nRows := by
  rw [Table.getCol?] at h
  cases hfind : t.cols.find? (fun c => c.1 == name) with
  | none => rw [hfind] at h; cases h
  | some c1 =>
    rw [hfind] at h
    have hc : c1.2 = col := by simpa using h
    rw [← hc]
    exact hwf c1 (List.mem_of_find?_eq_some hfind)

theorem create_folds_ok_spec {q : List Int → Option (List Int)}
    {sh : Nat → List Nat → List Nat}
    {data : Table} {s : Nat} {t' : Table} {lastp firstp : List Int}
    (hl : data.getCol? "last_pulse_index" = some lastp)
    (hf : data.getCol? "first_pulse_index" = some firstp)
    (h : create_folds q sh data s = .ok t') :
    ∃ binsv, q (List.zipWith (fun a b => a - b) lastp firstp) = some binsv ∧
      2 ≤ s ∧ s ≤ data.nRows ∧
      foldAssignLoop (testFoldsOf sh binsv s) (List.range s)
        (((data.setCol "n_pulses" (List.zipWith (fun a b => a - b) lastp firstp)).setCol
            "bins" binsv).setCol
          "fold" (List.replicate data.nRows (-1))) = .ok t' := by
  cases hqc : q (List.zipWith (fun a b => a - b) lastp firstp) with
  | none => simp [create_folds, hl, hf, hqc] at h
  | some binsv =>
    rw [create_folds, hl, hf] at h
    simp only [hqc, nRows_setCol] at h
    have hbins : ((((data.setCol "n_pulses"
          (List.zipWith (fun a b => a - b) lastp firstp)).setCol "bins"
          binsv).setCol "fold"
          (List.replicate data.nRows (-1))).getCol? "bins").getD []
        = binsv := by
      rw [getCol?_setCol_ne _ _ (by decide : "bins" ≠ "fold"),
        getCol?_setCol_self]
      rfl
    rw [hbins] at h
    split at h
    case isTrue hs2 => cases h
    case isFalse hs2 =>
      split at h
      case isTrue hsn => cases h
      case isFalse hsn =>
        split at h
        case isTrue hsmall => cases h
        case isFalse hsmall => exact ⟨binsv, rfl, by omega, by omega, h⟩

/-! ### Claims about the fold assigner -/

/-- Counterexample to claim C2 as stated: a two-row table with pulse counts
1 and 10 (so the real decile binning succeeds: `log10(n_pulses) = [0, 1]`
has eleven distinct quantile edges, giving bins `[0, 9]`) and the failing
configuration `n_splits = 1`.  `create_folds` raises at `StratifiedKFold`
construction, but the table it leaves behind is not the unmodified input:
the `n_pulses`, `bins` and `fold` (all `-1`) columns have already been
added before the failure surfaced. -/
theorem claim_C2_counterexample :
    create_folds (fun l => if l = [1, 10] then some [0, 9] else none)
      (fun _ l => l)
      ⟨[0, 1], [("first_pulse_index", [0, 0]), ("last_pulse_index", [1, 10])]⟩ 1 =
      .error ⟨[0, 1], [("first_pulse_index", [0, 0]), ("last_pulse_index", [1, 10]),
        ("n_pulses", [1, 10]), ("bins", [0, 9]), ("fold", [-1, -1])]⟩ ∧
    (⟨[0, 1], [("first_pulse_index", [0, 0]), ("last_pulse_index", [1, 10]),
        ("n_pulses", [1, 10]), ("bins", [0, 9]), ("fold", [-1, -1])]⟩ : Table) ≠
      ⟨[0, 1], [("first_pulse_index", [0, 0]), ("last_pulse_index", [1, 10])]⟩ :=
  ⟨rfl, by decide⟩

/-- Claim C2, amended: on every failure of the fold assigner, `create_folds`
raises only after mutating the input table, and no row receives a valid
fold.  The `n_pulses` column is always (re)written first; if the decile
binning itself fails (`pd.qcut`'s `Bin edges must be unique`, e.g. for
constant `log10(n_pulses)` or an empty table) the error surfaces with
`n_pulses` written, and on the splitter-stage failures (`n_splits < 2`,
fewer rows than `n_splits`, or every stratification bin smaller than
`n_splits`) it surfaces with `n_pulses` and `bins` written and every
`fold` set to the `-1` sentinel. -/
theorem claim_C2_mutation_on_failure (q : List Int → Option (List Int))
    (sh : Nat → List Nat → List Nat) (data : Table) (s : Nat)
    (lastp firstp : List Int)
    (hl : data.getCol? "last_pulse_index" = some lastp)
    (hf : data.getCol? "first_pulse_index" = some firstp) :
    (q (List.zipWith (fun a b => a - b) lastp firstp) = none →
      create_folds q sh data s =
        .error (data.setCol "n_pulses"
          (List.zipWith (fun a b => a - b) lastp firstp))) ∧
    (∀ binsv, q (List.zipWith (fun a b => a - b) lastp firstp) = some binsv →
      (s < 2 ∨ data.nRows < s ∨
        ((classesOf binsv).all (fun c => decide (binsv.count c < s)) = true)) →
      create_folds q sh data s =
        .error (((data.setCol "n_pulses"
            (List.zipWith (fun a b => a - b) lastp firstp)).setCol "bins"
            binsv).setCol
          "fold" (List.replicate data.nRows (-1)))) := by
  constructor
  · intro hqfail
    rw [create_folds, hl, hf]
    simp only [hqfail]
  · intro binsv hqc hfail
    rw [create_folds, hl, hf]
    simp only [hqc, nRows_setCol]
    have hbins : ((((data.setCol "n_pulses"
          (List.zipWith (fun a b => a - b) lastp firstp)).setCol "bins"
          binsv).setCol "fold"
          (List.replicate data.nRows (-1))).getCol? "bins").getD []
        = binsv := by
      rw [getCol?_setCol_ne _ _ (by decide : "bins" ≠ "fold"),
        getCol?_setCol_self]
      rfl
    rw [hbins]
    by_cases hs : s < 2
    · rw [if_pos hs]
    · rw [if_neg hs]
      by_cases hn : data.nRows < s
      · rw [if_pos hn]
      · rw [if_neg hn]
        rcases hfail with h1 | h1 | h1
        · exact absurd h1 hs
        · exact absurd h1 hn
        · rw [if_pos h1]

/-- Witness for the amended C2 at a concrete input: the splitter-stage
failure (`n_splits = 1`) on a two-row table whose binning succeeds. -/
theorem claim_C2_mutation_on_failure_witness :
    create_folds (fun l => if l = [1, 10] then some [0, 9] else none)
      (fun _ l => l)
      ⟨[0, 1], [("first_pulse_index", [0, 0]), ("last_pulse_index", [1, 10])]⟩ 1 =
      .error ((((⟨[0, 1], [("first_pulse_index", [0, 0]),
          ("last_pulse_index", [1, 10])]⟩ : Table).setCol "n_pulses"
          (List.zipWith (fun a b => a - b) [1, 10] [0, 0])).setCol "bins"
          [0, 9]).setCol
        "fold" (List.replicate (⟨[0, 1], [("first_pulse_index", [0, 0]),
          ("last_pulse_index", [1, 10])]⟩ : Table).nRows (-1))) :=
  (claim_C2_mutation_on_failure
    (fun l => if l = [1, 10] then some [0, 9] else none) (fun _ l => l)
    ⟨[0, 1], [("first_pulse_index", [0, 0]), ("last_pulse_index", [1, 10])]⟩ 1
    [1, 10] [0, 0] rfl rfl).2 [0, 9] rfl (Or.inl (by decide))

theorem create_folds_ok_coverage {q : List Int → Option (List Int)}
    {sh : Nat → List Nat → List Nat} {data : Table} {s : Nat} {t' : Table}
    (hq : ∀ l binsv, q l = some binsv → binsv.length = l.length)
    (hwf : ∀ c ∈ data.cols, c.2.length = data.nRows)
    (hsh : ∀ k l, (sh k l).Perm l)
    (h : create_folds q sh data s = .ok t') :
    t'.index = data.index ∧
    ∃ fc, t'.getCol? "fold" = some fc ∧ fc.length = data.nRows ∧
      ∀ v ∈ fc, 0 ≤ v ∧ v < (s : Int) := by
  cases hl : data.getCol? "last_pulse_index" with
  | none =>
    cases hff : data.getCol? "first_pulse_index" with
    | none => simp [create_folds, hl, hff] at h
    | some firstp => simp [create_folds, hl, hff] at h
  | some lastp =>
    cases hff : data.getCol? "first_pulse_index" with
    | none => simp [create_folds, hl, hff] at h
    | some firstp =>
      obtain ⟨binsv, hqc, hs2, hsn, hloop⟩ := create_folds_ok_spec hl hff h
      set np := List.zipWith (fun a b => a - b) lastp firstp with hnp
      set tf := testFoldsOf sh binsv s with htfdef
      set d3 := ((data.setCol "n_pulses" np).setCol "bins" binsv).setCol "fold"
        (List.replicate data.nRows (-1)) with hd3
      have hlastlen : lastp.length = data.nRows := getCol?_length hwf hl
      have hfirstlen : firstp.length = data.nRows := getCol?_length hwf hff
      have hnplen : np.length = data.nRows := by
        rw [hnp, List.length_zipWith, hlastlen, hfirstlen]
        omega
      have hylen : binsv.length = data.nRows := (hq np binsv hqc).trans hnplen
      have htflen : tf.length = data.nRows := by
        rw [htfdef, length_testFoldsOf]
        exact hylen
      have htflt : ∀ x ∈ tf, x < s := testFoldsOf_lt sh hsh binsv s (by omega)
      have hd3idx : d3.index = data.index := by simp [hd3]
      have hnr : data.index.length = data.nRows := rfl
      have hfold : d3.getCol? "fold" = some (List.replicate data.nRows (-1)) := by
        rw [hd3]
        exact getCol?_setCol_self _ _ _
      have hfoldlen :
          (List.replicate data.nRows (-1 : Int)).length = d3.index.length := by
        rw [List.length_replicate, hd3idx, hnr]
      have hassigned :=
        foldAssignLoop_ok_foldCol tf (List.range s) d3 t' _ hfold hfoldlen hloop
      have hlabels := foldAssignLoop_ok_labels tf (List.range s) d3 t' hloop
      have hgetDlt : ∀ p, p < data.nRows → tf.getD p 0 < s := by
        intro p hp
        have hptf : p < tf.length := by omega
        have hmem : tf.getD p 0 ∈ tf := by
          rw [List.getD_eq_getElem?_getD, List.getElem?_eq_getElem hptf,
            Option.getD_some]
          exact List.getElem_mem hptf
        exact htflt _ hmem
      have hcover : ∀ p, p < data.nRows → (Int.ofNat p) ∈ data.index := by
        intro p hp
        have hptf : p < tf.length := by omega
        have hmemti : p ∈ testIndices tf (tf.getD p 0) :=
          mem_testIndices.mpr ⟨hptf, rfl⟩
        have hmem :=
          hlabels (tf.getD p 0) (List.mem_range.mpr (hgetDlt p hp)) p hmemti
        rwa [hd3idx] at hmem
      have hpigeon := mem_index_range data.index data.nRows hnr hcover
      have hidxpres := (foldAssignLoop_ok_pres tf (List.range s) d3 t' hloop).1
      refine ⟨hidxpres.trans hd3idx, _, hassigned, ?_, ?_⟩
      · rw [List.length_map, List.length_zip, hd3idx, List.length_replicate, hnr]
        omega
      · intro v hv
        obtain ⟨⟨a, b⟩, hrc, hrcv⟩ := List.mem_map.mp hv
        have hrc1 : a ∈ d3.index := ((List.of_mem_zip hrc).1 : a ∈ d3.index)
        rw [hd3idx] at hrc1
        obtain ⟨p, hpn, hrceq⟩ := hpigeon a hrc1
        have hptf : p < tf.length := by omega
        have hv2 : v = Int.ofNat (tf.getD p 0) := by
          rw [← hrcv]
          show cellAfter tf (List.range s) a b = _
          rw [hrceq]
          exact cellAfter_of_mem tf p hptf (List.range s) b
            (List.mem_range.mpr (hgetDlt p hpn))
        rw [hv2, Int.ofNat_eq_natCast]
        constructor
        · omega
        · have := hgetDlt p hpn
          omega

/-- Claim C3: for every non-empty event table on which `create_folds`
succeeds, every row of the returned table carries a fold value in
`{0, …, n_splits - 1}`; no row retains the `-1` sentinel.  The `qcutLog10`
binning is assumed only to be length-preserving when it succeeds and the
`StratifiedKFold` shuffle only to permute, as the libraries guarantee. -/
theorem claim_C3_fold_coverage (q : List Int → Option (List Int))
    (sh : Nat → List Nat → List Nat) (data : Table) (s : Nat) (t' : Table)
    (hq : ∀ l binsv, q l = some binsv → binsv.length = l.length)
    (hwf : ∀ c ∈ data.cols, c.2.length = data.nRows)
    (hsh : ∀ k l, (sh k l).Perm l)
    (_hne : data.nRows ≠ 0)
    (h : create_folds q sh data s = .ok t') :
    ∃ fc, t'.getCol? "fold" = some fc ∧ fc.length = data.nRows ∧
      ∀ v ∈ fc, 0 ≤ v ∧ v < (s : Int) :=
  (create_folds_ok_coverage hq hwf hsh h).2

/-- Witness for C3 at a concrete successful run. -/
theorem claim_C3_fold_coverage_witness :
    ∃ fc, (⟨[0, 1], [("first_pulse_index", [0, 0]), ("last_pulse_index", [1, 1]),
        ("n_pulses", [1, 1]), ("bins", [0, 0]), ("fold", [0, 1])]⟩ : Table).getCol?
        "fold" = some fc ∧
      fc.length = (⟨[0, 1], [("first_pulse_index", [0, 0]),
        ("last_pulse_index", [1, 1])]⟩ : Table).nRows ∧
      ∀ v ∈ fc, 0 ≤ v ∧ v < ((2 : Nat) : Int) :=
  claim_C3_fold_coverage (fun l => some (l.map (fun _ => 0))) (fun _ l => l)
    ⟨[0, 1], [("first_pulse_index", [0, 0]), ("last_pulse_index", [1, 1])]⟩ 2
    ⟨[0, 1], [("first_pulse_index", [0, 0]), ("last_pulse_index", [1, 1]),
      ("n_pulses", [1, 1]), ("bins", [0, 0]), ("fold", [0, 1])]⟩
    (by
      intro l binsv hb
      injection hb with hb2
      rw [← hb2]
      simp)
    (by decide) (fun k l => List.Perm.refl l) (by decide) rfl

/-- Claim C6: `create_folds` writes fold labels with label-based `data.loc`
lookup applied to the positional indices from the splitter; for tables
whose index labels are the positions `0, …, n-1` (the default range index)
every existing row receives exactly one valid fold label and no rows are
created (the index is unchanged); and a table violating the precondition
can make the assignment fail outright (pandas `KeyError`), so the
precondition is what sustains the fold-coverage guarantee. -/
theorem claim_C6_label_positional :
    (∀ (q : List Int → Option (List Int)) (sh : Nat → List Nat → List Nat)
      (data : Table) (s : Nat) (t' : Table),
      (∀ l binsv, q l = some binsv → binsv.length = l.length) →
      (∀ c ∈ data.cols, c.2.length = data.nRows) →
      (∀ k l, (sh k l).Perm l) →
      data.index = (List.range data.nRows).map Int.ofNat →
      create_folds q sh data s = .ok t' →
      t'.index = data.index ∧
      ∃ fc, t'.getCol? "fold" = some fc ∧ fc.length = data.nRows ∧
        ∀ v ∈ fc, 0 ≤ v) ∧
    ((⟨[5, 6], [("first_pulse_index", [0, 0]), ("last_pulse_index", [1, 1])]⟩ :
        Table).index ≠
      (List.range (⟨[5, 6], [("first_pulse_index", [0, 0]),
        ("last_pulse_index", [1, 1])]⟩ : Table).nRows).map Int.ofNat ∧
      ∃ mutated : Table,
        create_folds (fun l => some (l.map (fun _ => 0))) (fun _ l => l)
          ⟨[5, 6], [("first_pulse_index", [0, 0]), ("last_pulse_index", [1, 1])]⟩ 2 =
          .error mutated) := by
  constructor
  · intro q sh data s t' hq hwf hsh _hidx h
    obtain ⟨hidxpres, fc, hfc, hlen, hbound⟩ := create_folds_ok_coverage hq hwf hsh h
    exact ⟨hidxpres, fc, hfc, hlen, fun v hv => (hbound v hv).1⟩
  · exact ⟨by decide, _, rfl⟩

/-- Witness for the universally quantified half of C6 at a concrete input. -/
theorem claim_C6_label_positional_witness :
    (⟨[0, 1], [("first_pulse_index", [0, 0]), ("last_pulse_index", [1, 1]),
        ("n_pulses", [1, 1]), ("bins", [0, 0]), ("fold", [0, 1])]⟩ : Table).index =
      (⟨[0, 1], [("first_pulse_index", [0, 0]),
        ("last_pulse_index", [1, 1])]⟩ : Table).index ∧
    ∃ fc, (⟨[0, 1], [("first_pulse_index", [0, 0]), ("last_pulse_index", [1, 1]),
        ("n_pulses", [1, 1]), ("bins", [0, 0]), ("fold", [0, 1])]⟩ : Table).getCol?
        "fold" = some fc ∧
      fc.length = (⟨[0, 1], [("first_pulse_index", [0, 0]),
        ("last_pulse_index", [1, 1])]⟩ : Table).nRows ∧
      ∀ v ∈ fc, 0 ≤ v :=
  claim_C6_label_positional.1 (fun l => some (l.map (fun _ => 0))) (fun _ l => l)
    ⟨[0, 1], [("first_pulse_index", [0, 0]), ("last_pulse_index", [1, 1])]⟩ 2
    ⟨[0, 1], [("first_pulse_index", [0, 0]), ("last_pulse_index", [1, 1]),
      ("n_pulses", [1, 1]), ("bins", [0, 0]), ("fold", [0, 1])]⟩
    (by
      intro l binsv hb
      injection hb with hb2
      rw [← hb2]
      simp)
    (by decide) (fun k l => List.Perm.refl l) (by decide) rfl

/-- Claim C10: on every successful run, all pre-existing columns other than
`n_pulses`, `bins`, `fold` are returned with unchanged values, and the only
column names added are those three. -/
theorem claim_C10_frame_effect (q : List Int → Option (List Int))
    (sh : Nat → List Nat → List Nat) (data : Table) (s : Nat) (t' : Table)
    (h : create_folds q sh data s = .ok t') :
    (∀ m, m ≠ "n_pulses" → m ≠ "bins" → m ≠ "fold" →
      t'.getCol? m = data.getCol? m) ∧
    (∀ m ∈ t'.colNames,
      m ∈ data.colNames ∨ m = "n_pulses" ∨ m = "bins" ∨ m = "fold") := by
  cases hl : data.getCol? "last_pulse_index" with
  | none =>
    cases hff : data.getCol? "first_pulse_index" with
    | none => simp [create_folds, hl, hff] at h
    | some firstp => simp [create_folds, hl, hff] at h
  | some lastp =>
    cases hff : data.getCol? "first_pulse_index" with
    | none => simp [create_folds, hl, hff] at h
    | some firstp =>
      obtain ⟨binsv, hqc, hs2, hsn, hloop⟩ := create_folds_ok_spec hl hff h
      obtain ⟨hidx, hpres, hnames⟩ := foldAssignLoop_ok_pres _ _ _ _ hloop
      constructor
      · intro m hm1 hm2 hm3
        rw [hpres m hm3, getCol?_setCol_ne _ _ hm3, getCol?_setCol_ne _ _ hm2,
          getCol?_setCol_ne _ _ hm1]
      · intro m hm
        rw [hnames] at hm
        rcases colNames_setCol _ _ _ m hm with hm | hm
        · rcases colNames_setCol _ _ _ m hm with hm | hm
          · rcases colNames_setCol _ _ _ m hm with hm | hm
            · exact Or.inl hm
            · exact Or.inr (Or.inl hm)
          · exact Or.inr (Or.inr (Or.inl hm))
        · exact Or.inr (Or.inr (Or.inr hm))

/-- Witness for C10: a pre-existing `event_id` column survives a concrete
successful run unchanged. -/
theorem claim_C10_frame_effect_witness :
    (⟨[0, 1], [("event_id", [7, 8]), ("first_pulse_index", [0, 0]),
        ("last_pulse_index", [1, 1]), ("n_pulses", [1, 1]), ("bins", [0, 0]),
        ("fold", [0, 1])]⟩ : Table).getCol? "event_id" =
      (⟨[0, 1], [("event_id", [7, 8]), ("first_pulse_index", [0, 0]),
        ("last_pulse_index", [1, 1])]⟩ : Table).getCol? "event_id" :=
  (claim_C10_frame_effect (fun l => some (l.map (fun _ => 0))) (fun _ l => l)
    ⟨[0, 1], [("event_id", [7, 8]), ("first_pulse_index", [0, 0]),
      ("last_pulse_index", [1, 1])]⟩ 2
    ⟨[0, 1], [("event_id", [7, 8]), ("first_pulse_index", [0, 0]),
      ("last_pulse_index", [1, 1]), ("n_pulses", [1, 1]), ("bins", [0, 0]),
      ("fold", [0, 1])]⟩ rfl).1 "event_id" (by decide) (by decide) (by decide)
